import Mathlib

/-!
# Verification of the XKit “Separator” witnessed-interval tracker

Shallow embedding of `src/Extensions/separator.js`: the sorted-disjoint
safe-integer interval set (`areSortedDisjointSafeIntegerIntervals`,
`addToSortedDisjointSafeIntegerIntervals`, `indexOfIntervalContainingValue`),
the per-context cursor (`Cursors`, `validCursors`, `saveCursors`) and the
goal-post reconciliation state machine (`reconcile`).

JavaScript numbers that the code checks with `Number.isSafeInteger` are
modelled as `Int` together with the explicit safe-integer bound; intervals are
pairs of `Int`; the persisted-storage write performed by `saveCursors` is made
explicit in the result of `reconcile` so that atomicity over throws can be
stated.  Thrown exceptions are the `err` constructor of `ReconcileRun`.
-/

/-- `Number.MAX_SAFE_INTEGER`, i.e. `2 ^ 53 - 1`. -/
def maxSafeInteger : Int := 9007199254740991

/-- `Number.isSafeInteger` on an integer value: `|value| ≤ 2 ^ 53 - 1`. -/
def isSafeInteger (value : Int) : Bool :=
  decide (-maxSafeInteger ≤ value) && decide (value ≤ maxSafeInteger)

/-- `isSafePositiveInteger` from separator.js (line 57). -/
def isSafePositiveInteger (value : Int) : Bool :=
  isSafeInteger value && decide (0 < value)

/-- The loop of `areSortedDisjointSafeIntegerIntervals`, carrying
`prevUpperEndpoint`.  The JavaScript loop starts `prevUpperEndpoint` at
`Number.NEGATIVE_INFINITY`; since every lower endpoint must additionally be a
safe integer for the check to pass, any integer below `-(2 ^ 53 - 1)` is an
equivalent stand-in for `-∞` (see `areSortedDisjointSafeIntegerIntervals`). -/
def areSortedFrom (prevUpperEndpoint : Int) : List (Int × Int) → Bool
  | [] => true
  | (lowerEndpoint, upperEndpoint) :: rest =>
    isSafeInteger lowerEndpoint && isSafeInteger upperEndpoint &&
    decide (prevUpperEndpoint < lowerEndpoint) && decide (lowerEndpoint < upperEndpoint) &&
    areSortedFrom upperEndpoint rest

/-- Stand-in for `Number.NEGATIVE_INFINITY` as the initial previous upper
endpoint: strictly below every safe integer. -/
def negativeInfinity : Int := -9007199254740992

/-- `areSortedDisjointSafeIntegerIntervals` from separator.js (lines 61–72):
every endpoint is a safe integer, every interval is nondegenerate
(`lower < upper`) and consecutive intervals satisfy
`previous upper < next lower`. -/
def areSortedDisjointSafeIntegerIntervals (intervals : List (Int × Int)) : Bool :=
  areSortedFrom negativeInfinity intervals

/-- The mutable locals of the loop inside
`addToSortedDisjointSafeIntegerIntervals` (lines 78–80). -/
structure AddState where
  spliceStart : Nat
  spliceDeleteCount : Nat
  preservedEndpoints : Nat
  newLowerEndpoint : Int
  newUpperEndpoint : Int
  deriving DecidableEq

/-- The `for` loop of `addToSortedDisjointSafeIntegerIntervals`
(lines 81–93), one constructor case per iteration; `continue` after the first
guard is the first branch, `break` the second. -/
def addLoop : List (Int × Int) → AddState → AddState
  | [], s => s
  | (oldLowerEndpoint, oldUpperEndpoint) :: rest, s =>
    if oldUpperEndpoint < s.newLowerEndpoint then
      addLoop rest { s with spliceStart := s.spliceStart + 1 }
    else if s.newUpperEndpoint < oldLowerEndpoint then
      s
    else
      let s1 :=
        if oldLowerEndpoint ≤ s.newLowerEndpoint ∧ s.newLowerEndpoint ≤ oldUpperEndpoint then
          { s with newLowerEndpoint := oldLowerEndpoint,
                   preservedEndpoints := s.preservedEndpoints + 1 }
        else s
      let s2 :=
        if oldLowerEndpoint ≤ s1.newUpperEndpoint ∧ s1.newUpperEndpoint ≤ oldUpperEndpoint then
          { s1 with newUpperEndpoint := oldUpperEndpoint,
                    preservedEndpoints := s1.preservedEndpoints + 1 }
        else s1
      addLoop rest { s2 with spliceDeleteCount := s2.spliceDeleteCount + 1 }

/-- `addToSortedDisjointSafeIntegerIntervals` from separator.js (lines 74–99).
The JavaScript mutates `intervals` via `splice` and returns `updated`; here the
pair `(updated, resulting list)` is returned.  `splice(spliceStart,
spliceDeleteCount, [newLower, newUpper])` is `take spliceStart`, the new
interval, then `drop (spliceStart + spliceDeleteCount)`. -/
def addToSortedDisjointSafeIntegerIntervals (intervals : List (Int × Int))
    (interval : Int × Int) : Bool × List (Int × Int) :=
  let s := addLoop intervals ⟨0, 0, 0, interval.1, interval.2⟩
  if s.spliceDeleteCount = 1 ∧ s.preservedEndpoints = 2 then
    (false, intervals)
  else
    (true,
      intervals.take s.spliceStart ++
        (s.newLowerEndpoint, s.newUpperEndpoint) :: intervals.drop (s.spliceStart + s.spliceDeleteCount))

/-- The loop of `indexOfIntervalContainingValue` (lines 105–110), carrying the
running `index`; both `break` and loop exhaustion yield `-1`. -/
def indexOfLoop : List (Int × Int) → Int → Int → Int
  | [], _, _ => -1
  | (lowerEndpoint, upperEndpoint) :: rest, value, index =>
    if upperEndpoint < value then indexOfLoop rest value (index + 1)
    else if value < lowerEndpoint then -1
    else index

/-- `indexOfIntervalContainingValue` from separator.js (lines 101–112). -/
def indexOfIntervalContainingValue (intervals : List (Int × Int)) (value : Int) : Int :=
  indexOfLoop intervals value 0

/-- Per-context cursor state.  The dashboard variant stores
`(goalPostId, witnessedPostIds)`; the tagged variant additionally keeps the
timestamp→post-ID adjacency-hint map, modelled as an association list in
insertion order (a JavaScript `Map`). -/
structure Cursors where
  goalPostId : Option Int
  witnessedPostIds : List (Int × Int)
  adjacencyHints : List (Int × Int)
  deriving DecidableEq

/-- `validCursors` from separator.js (lines 117–123): with a safe positive
goal post the interval `[0, goalPostId]` is prepended before checking
sorted-disjointness; otherwise the cursor must be exactly the never-visited
state (`goalPostId === null` and no witnessed intervals).  Adjacency hints are
not inspected here (they are validated only by `validTaggedCursors`). -/
def validCursors (cursors : Cursors) : Bool :=
  match cursors.goalPostId with
  | some goalPostId =>
    if isSafePositiveInteger goalPostId then
      areSortedDisjointSafeIntegerIntervals ((0, goalPostId) :: cursors.witnessedPostIds)
    else false
  | none => cursors.witnessedPostIds.isEmpty

/-- The dashboard `saveCursors` (lines 179–184): validate, then write.
`some written` is a successful `XKit.storage.set` of exactly the validated
cursor; `none` is the `Attempted to save invalid cursors` throw, in which case
nothing is written. -/
def saveCursors (cursors : Cursors) : Option Cursors :=
  if validCursors cursors then some cursors else none

/-- Values `reconcile` can return normally. -/
inductive ReconcileResult where
  | resolved (postId : Int)
  | defer
  | abort
  deriving DecidableEq

/-- A normal return of `reconcile`: the returned value, the in-memory cursor
afterwards, and the cursor written to persistent storage during the call
(`none` when no write happened). -/
structure ReconcileOutcome where
  result : ReconcileResult
  cursors : Cursors
  persisted : Option Cursors
  deriving DecidableEq

/-- A complete run of `reconcile`: either a normal return, or a thrown
`Invariants broken` / `Attempted to save invalid cursors` error, recording the
cursor written to storage before the throw (if any). -/
inductive ReconcileRun where
  | ok (outcome : ReconcileOutcome)
  | err (persisted : Option Cursors)
  deriving DecidableEq

/-- The `i > -1` loop of `reconcile` (lines 441–445) seen from the oldest end:
`best` starts at `postIds[postIds.length - 1]` and the remaining post IDs are
visited from oldest to newest until one exceeds the goal post. -/
def bestGoalPostLoop (goalPostId : Int) : List Int → Int → Int
  | [], best => best
  | postId :: rest, best =>
    if goalPostId < postId then best
    else bestGoalPostLoop goalPostId rest postId

/-- Lines 440–445 of separator.js: the oldest-to-newest scan of `postIds`
whose result is the last ID not exceeding the (old) goal post; `postIds` is
newest-first, so the scan runs over its reverse. -/
def findBestGoalPostId (goalPostId : Int) (postIds : List Int) : Int :=
  bestGoalPostLoop goalPostId postIds.reverse.tail (postIds.getLastD 0)

/-- The `saveCursors(cursors); return value;` idiom of `reconcile` (lines
382–383, 404–405, 429–431 and 452–454): persist the cursor and return
normally, or propagate the save-time validation throw. -/
def saveAndReturn (result : ReconcileResult) (cursors : Cursors) : ReconcileRun :=
  match saveCursors cursors with
  | some written => ReconcileRun.ok ⟨result, cursors, some written⟩
  | none => ReconcileRun.err none

/-- Lines 415–454 of `reconcile`: the merge of the (possibly augmented)
observed range into the witnessed intervals, the goal-post containment test,
and the defer / goal-reached conclusion.  Factored out of `reconcile` below
with the already-validated `goalPostId` and the computed `range` as
arguments. -/
def reconcileMerge (cursors : Cursors) (postIds : List Int) (goalPostId : Int)
    (range : Int × Int)
    (updateAdjacencyHints : Cursors → List Int → Cursors) : ReconcileRun :=
  if decide (range.2 ≤ range.1) then
    -- lines 418–420
    ReconcileRun.err none
  else
    -- lines 422–423
    let addResult := addToSortedDisjointSafeIntegerIntervals cursors.witnessedPostIds range
    let cursorsUpdated := addResult.1
    let c1 := { cursors with witnessedPostIds := addResult.2 }
    let index := indexOfIntervalContainingValue c1.witnessedPostIds goalPostId
    if index == -1 then
      -- lines 425–432: goal post not yet reached
      if cursorsUpdated then
        let c2 := updateAdjacencyHints c1 postIds
        saveAndReturn ReconcileResult.defer c2
      else
        ReconcileRun.ok ⟨ReconcileResult.defer, c1, none⟩
    else
      if !(cursorsUpdated && (index == 0)) then
        -- lines 434–437
        ReconcileRun.err none
      else
        -- lines 439–454: goal post reached
        let bestGoalPostId := findBestGoalPostId goalPostId postIds
        let newGoalPostId := (c1.witnessedPostIds.headD (0, 0)).2
        let c2 := { c1 with goalPostId := some newGoalPostId,
                            witnessedPostIds := c1.witnessedPostIds.tail }
        let c3 := updateAdjacencyHints c2 postIds
        saveAndReturn (ReconcileResult.resolved bestGoalPostId) c3

/-- `reconcile` from separator.js (lines 352–455).  `augmentWithAdjacencyHints`
and `updateAdjacencyHints` are the context-supplied functions; `saveCursors`
is the dashboard validate-then-write modelled above. -/
def reconcile (cursors : Cursors) (postIds : List Int) (initial : Bool) (isFirstPage : Bool)
    (augmentWithAdjacencyHints : Cursors → Int × Int → Int × Int)
    (updateAdjacencyHints : Cursors → List Int → Cursors) : ReconcileRun :=
  match postIds with
  | [] =>
    -- lines 369–373: empty context or glitch; do nothing
    ReconcileRun.ok ⟨ReconcileResult.abort, cursors, none⟩
  | newestPostId :: _ =>
    if initial && (cursors.goalPostId == none) then
      -- lines 375–384: first-ever visit to this context
      let c1 := { cursors with goalPostId := some newestPostId }
      saveAndReturn (ReconcileResult.resolved newestPostId) c1
    else
      match cursors.goalPostId with
      | none =>
        -- lines 386–389: `isSafePositiveInteger(null)` is false
        ReconcileRun.err none
      | some goalPostId =>
        if !isSafePositiveInteger goalPostId then
          -- lines 386–389
          ReconcileRun.err none
        else
          -- line 393
          let oldestWitnessedPostId := postIds.getLastD 0
          let newestWitnessedPostId := newestPostId
          if initial && decide (newestWitnessedPostId < goalPostId) then
            if isFirstPage then
              -- lines 397–405: the original goal post was deleted
              let c1 := { cursors with goalPostId := some newestWitnessedPostId,
                                       witnessedPostIds := [] }
              let c2 := updateAdjacencyHints c1 postIds
              saveAndReturn (ReconcileResult.resolved newestWitnessedPostId) c2
            else
              -- lines 407–409: trawling through past posts
              ReconcileRun.ok ⟨ReconcileResult.abort, cursors, none⟩
          else
            -- line 412 (augmentation happens only on the initial pass)
            let range :=
              if initial then
                augmentWithAdjacencyHints cursors (oldestWitnessedPostId, newestWitnessedPostId)
              else (oldestWitnessedPostId, newestWitnessedPostId)
            reconcileMerge cursors postIds goalPostId range updateAdjacencyHints

/-- The trivial adjacency-hint augmentation `(cursors, ids) => ids`
(lines 142 and 246). -/
def augmentWithAdjacencyHintsDefault (cursors : Cursors) (range : Int × Int) : Int × Int :=
  range

/-- The dashboard augmentation for a positive signed post ID in the URL
(lines 155–160): the post below the previous page boundary. -/
def augmentWithAdjacencyHintsDashboardNewer (postId : Int) (cursors : Cursors)
    (range : Int × Int) : Int × Int :=
  if indexOfIntervalContainingValue cursors.witnessedPostIds postId ≠ -1 then
    (range.1, postId)
  else range

/-- The dashboard augmentation for a negative signed post ID in the URL
(lines 162–167). -/
def augmentWithAdjacencyHintsDashboardOlder (postId : Int) (cursors : Cursors)
    (range : Int × Int) : Int × Int :=
  if indexOfIntervalContainingValue cursors.witnessedPostIds postId ≠ -1 then
    (postId, range.2)
  else range

/-- `Map.prototype.get` on the association-list model of a JavaScript `Map`. -/
def mapGet (entries : List (Int × Int)) (key : Int) : Option Int :=
  (entries.find? (fun entry => entry.1 == key)).map Prod.snd

/-- `Map.prototype.set` on the association-list model: replace in place, or
append a fresh entry. -/
def mapSet (entries : List (Int × Int)) (key value : Int) : List (Int × Int) :=
  if entries.any (fun entry => entry.1 == key) then
    entries.map (fun entry => if entry.1 == key then (key, value) else entry)
  else entries ++ [(key, value)]

/-- The tagged-view augmentation (lines 253–259), with the page's `before`
timestamp as a parameter. -/
def augmentWithAdjacencyHintsTagged (pageTimestamp : Int) (cursors : Cursors)
    (range : Int × Int) : Int × Int :=
  match mapGet cursors.adjacencyHints pageTimestamp with
  | some postId =>
    if indexOfIntervalContainingValue cursors.witnessedPostIds postId ≠ -1 then
      (range.1, postId)
    else range
  | none => range

/-- The dashboard `updateAdjacencyHints` (line 221): a no-op. -/
def updateAdjacencyHintsDashboard (cursors : Cursors) (postIds : List Int) : Cursors :=
  cursors

/-- The tagged `updateAdjacencyHints` (lines 262–276): clear the hint map when
the witnessed intervals are empty, otherwise record the next page's `before`
timestamp (read from the DOM, here a parameter; `none` when the
`next_page_link` element or a valid timestamp is absent) against the oldest
witnessed post ID of this batch. -/
def updateAdjacencyHintsTagged (nextPageTimestamp : Option Int) (cursors : Cursors)
    (postIds : List Int) : Cursors :=
  if cursors.witnessedPostIds.isEmpty then
    { cursors with adjacencyHints := [] }
  else
    match nextPageTimestamp with
    | some nextTimestamp =>
      if isSafePositiveInteger nextTimestamp then
        { cursors with
            adjacencyHints := mapSet cursors.adjacencyHints nextTimestamp (postIds.getLastD 0) }
      else cursors
    | none => cursors

/-- The strictly-decreasing safe-positive guarantee that
`enumerateDashboardPostIds` (lines 333–350) establishes for every observed
batch, and that `reconcile` documents as its precondition (lines 360–363). -/
def areReverseSortedSafePostIds : List Int → Bool
  | [] => true
  | [postId] => isSafePositiveInteger postId
  | postId :: nextPostId :: rest =>
    isSafePositiveInteger postId && decide (nextPostId < postId) &&
    areReverseSortedSafePostIds (nextPostId :: rest)

/-! ## Basic facts about the sortedness predicate -/

theorem areSortedFrom_cons {prev lo hi : Int} {rest : List (Int × Int)} :
    areSortedFrom prev ((lo, hi) :: rest) = true ↔
      (isSafeInteger lo = true ∧ isSafeInteger hi = true ∧ prev < lo ∧ lo < hi ∧
        areSortedFrom hi rest = true) := by
  simp [areSortedFrom, and_assoc]

theorem areSortedFrom_mem {L : List (Int × Int)} {prev : Int}
    (h : areSortedFrom prev L = true) :
    ∀ p ∈ L, prev < p.1 ∧ p.1 < p.2 ∧ isSafeInteger p.1 = true ∧ isSafeInteger p.2 = true := by
  induction L generalizing prev with
  | nil => intro p hp; cases hp
  | cons q rest ih =>
    obtain ⟨lo, hi⟩ := q
    rw [areSortedFrom_cons] at h
    obtain ⟨h1, h2, h3, h4, h5⟩ := h
    intro p hp
    rcases List.mem_cons.mp hp with hp | hp
    · subst hp; exact ⟨h3, h4, h1, h2⟩
    · obtain ⟨g1, g2, g3, g4⟩ := ih h5 p hp
      exact ⟨h3.trans (h4.trans g1), g2, g3, g4⟩

theorem areSortedFrom_weaken {L : List (Int × Int)} {prev prev' : Int}
    (h : areSortedFrom prev L = true) (hle : prev' ≤ prev) : areSortedFrom prev' L = true := by
  cases L with
  | nil => rfl
  | cons q rest =>
    obtain ⟨lo, hi⟩ := q
    rw [areSortedFrom_cons] at h ⊢
    exact ⟨h.1, h.2.1, lt_of_le_of_lt hle h.2.2.1, h.2.2.2⟩

theorem areSortedFrom_retarget {L : List (Int × Int)} {prev w : Int}
    (h : areSortedFrom prev L = true) (hw : ∀ q ∈ L.head?, w < q.1) :
    areSortedFrom w L = true := by
  cases L with
  | nil => rfl
  | cons q rest =>
    obtain ⟨lo, hi⟩ := q
    rw [areSortedFrom_cons] at h ⊢
    exact ⟨h.1, h.2.1, hw (lo, hi) rfl, h.2.2.2⟩

theorem validCursors_eq_of_some {c : Cursors} {g : Int} (hg : c.goalPostId = some g) :
    validCursors c =
      (if isSafePositiveInteger g then
        areSortedDisjointSafeIntegerIntervals ((0, g) :: c.witnessedPostIds)
      else false) := by
  unfold validCursors
  rw [hg]

theorem validCursors_eq_of_none {c : Cursors} (hg : c.goalPostId = none) :
    validCursors c = c.witnessedPostIds.isEmpty := by
  unfold validCursors
  rw [hg]

theorem validCursors_some {c : Cursors} {g : Int}
    (hval : validCursors c = true) (hg : c.goalPostId = some g) :
    isSafePositiveInteger g = true ∧ areSortedFrom g c.witnessedPostIds = true := by
  rw [validCursors_eq_of_some hg] at hval
  by_cases hsafe : isSafePositiveInteger g = true
  · refine ⟨hsafe, ?_⟩
    rw [if_pos hsafe] at hval
    unfold areSortedDisjointSafeIntegerIntervals at hval
    exact (areSortedFrom_cons.mp hval).2.2.2.2
  · rw [if_neg hsafe] at hval
    cases hval

theorem saveAndReturn_of_valid (result : ReconcileResult) {c : Cursors}
    (hv : validCursors c = true) :
    saveAndReturn result c = ReconcileRun.ok ⟨result, c, some c⟩ := by
  unfold saveAndReturn saveCursors
  rw [if_pos hv]

theorem saveAndReturn_err {result : ReconcileResult} {c : Cursors} {p : Option Cursors}
    (h : saveAndReturn result c = ReconcileRun.err p) : p = none := by
  unfold saveAndReturn saveCursors at h
  by_cases hv : validCursors c = true
  · rw [if_pos hv] at h
    exact ReconcileRun.noConfusion h
  · rw [if_neg hv] at h
    exact (ReconcileRun.err.inj h).symm

theorem saveAndReturn_ok {result : ReconcileResult} {c : Cursors} {o : ReconcileOutcome}
    (h : saveAndReturn result c = ReconcileRun.ok o) :
    validCursors c = true ∧ o = ⟨result, c, some c⟩ := by
  by_cases hv : validCursors c = true
  · refine ⟨hv, ?_⟩
    rw [saveAndReturn_of_valid result hv] at h
    exact (ReconcileRun.ok.inj h).symm
  · exfalso
    unfold saveAndReturn saveCursors at h
    rw [if_neg hv] at h
    exact ReconcileRun.noConfusion h

/-! ## C10: every witnessed interval lies strictly above the goal post -/

/-- Every interval of `witnessedPostIds` lies strictly above `goalPostId`. -/
def goalPostBelowAll (goalPostId : Int) (witnessedPostIds : List (Int × Int)) : Prop :=
  ∀ p ∈ witnessedPostIds, goalPostId < p.1 ∧ goalPostId < p.2

/-- C10: in every cursor accepted by `validCursors` with a non-null goal post,
every witnessed interval lies strictly above the goal post: the validator
prepends `[0, goalPostId]` to the witnessed list before checking
sorted-disjointness, so `goalPostId` is strictly below the lower endpoint of
the first interval and hence below every endpoint.  `loadCursors` and
`saveCursors` both gate on this validator, so no loaded or persisted witnessed
interval ever contains or precedes the goal post. -/
theorem claim_C10_goal_post_strictly_below_witnessed (c : Cursors) (g : Int)
    (hval : validCursors c = true) (hg : c.goalPostId = some g) :
    goalPostBelowAll g c.witnessedPostIds := by
  obtain ⟨-, hsorted⟩ := validCursors_some hval hg
  intro p hp
  obtain ⟨h1, h2, -, -⟩ := areSortedFrom_mem hsorted p hp
  exact ⟨h1, h1.trans h2⟩

/-- Witness for C10 at a concrete valid cursor. -/
theorem claim_C10_witness :
    validCursors ⟨some 5, [(7, 9)], []⟩ = true ∧ goalPostBelowAll 5 [(7, 9)] :=
  ⟨by decide, claim_C10_goal_post_strictly_below_witnessed ⟨some 5, [(7, 9)], []⟩ 5 (by decide) rfl⟩

/-! ## C3: `goalPostId = null` versus empty `witnessedPostIds` -/

/-- C3 is false as stated: the biconditional fails in the `empty implies null`
direction.  The cursor `{goalPostId: 50, witnessedPostIds: []}` is accepted by
`validCursors` (it is the caught-up state) and is, moreover, exactly what the
first-ever-visit branch of `reconcile` produces and persists, yet its goal
post is not null while its witnessed-interval list is empty. -/
theorem claim_C3_counterexample :
    validCursors ⟨some 50, [], []⟩ = true ∧
    (⟨some 50, [], []⟩ : Cursors).witnessedPostIds = [] ∧
    (⟨some 50, [], []⟩ : Cursors).goalPostId ≠ none ∧
    reconcile ⟨none, [], []⟩ [50, 49, 48] true true
        augmentWithAdjacencyHintsDefault updateAdjacencyHintsDashboard
      = ReconcileRun.ok ⟨ReconcileResult.resolved 50, ⟨some 50, [], []⟩,
          some ⟨some 50, [], []⟩⟩ := by
  decide

/-- C3 amended: only the `null implies empty` direction holds — every cursor
accepted by `validCursors` with `goalPostId = null` has empty
`witnessedPostIds` (the never-visited state); a non-null goal post with empty
witnessed intervals is also valid (the caught-up state), so emptiness does not
imply nullity. -/
theorem claim_C3_null_goal_post_implies_no_witnessed (c : Cursors)
    (hval : validCursors c = true) (hg : c.goalPostId = none) :
    c.witnessedPostIds = [] := by
  rw [validCursors_eq_of_none hg] at hval
  exact List.isEmpty_iff.mp hval

/-- Witness for the amended C3 at the never-visited cursor. -/
theorem claim_C3_witness :
    validCursors ⟨none, [], []⟩ = true ∧ (⟨none, [], []⟩ : Cursors).witnessedPostIds = [] :=
  ⟨by decide, claim_C3_null_goal_post_implies_no_witnessed ⟨none, [], []⟩ (by decide) rfl⟩

/-! ## C1: deferred convergence scenario -/

/-- C1: starting from the valid cursor `{goalPostId: 100, witnessedPostIds: []}`,
the initial-pass reconcile of `[105, 104, 103]` (identity hint augmentation)
returns `DEFER` and persists witnessed intervals `[[103, 105]]` with the goal
post unchanged; the subsequent non-initial reconcile of
`[103, 102, 101, 100, 99]` reaches the goal post, returns the resolved ID
`100 ≥ 100`, sets the new goal post to `105`, and leaves the witnessed
intervals empty (the absorbed interval removed). -/
theorem claim_C1_deferred_convergence :
    reconcile ⟨some 100, [], []⟩ [105, 104, 103] true true
        augmentWithAdjacencyHintsDefault updateAdjacencyHintsDashboard
      = ReconcileRun.ok ⟨ReconcileResult.defer, ⟨some 100, [(103, 105)], []⟩,
          some ⟨some 100, [(103, 105)], []⟩⟩ ∧
    reconcile ⟨some 100, [(103, 105)], []⟩ [103, 102, 101, 100, 99] false true
        augmentWithAdjacencyHintsDefault updateAdjacencyHintsDashboard
      = ReconcileRun.ok ⟨ReconcileResult.resolved 100, ⟨some 105, [], []⟩,
          some ⟨some 105, [], []⟩⟩ ∧
    (100 : Int) ≤ 100 := by
  refine ⟨by decide, by decide, le_refl 100⟩

/-! ## C2: deleted goal-post recovery -/

/-- C2 is false as stated: with `goalPostId = 100` and first-page batch
`[110, 109, …, 101]`, the newest observed ID `110` is not strictly below the
goal post, so the deleted-goal-post branch (which requires
`newest < goalPostId`) never runs.  `reconcile` instead merges `[101, 110]`
into the witnessed intervals and returns `DEFER` with the goal post unchanged
— not `110` with a reset cursor. -/
theorem claim_C2_counterexample :
    reconcile ⟨some 100, [], []⟩ [110, 109, 108, 107, 106, 105, 104, 103, 102, 101] true true
        augmentWithAdjacencyHintsDefault updateAdjacencyHintsDashboard
      = ReconcileRun.ok ⟨ReconcileResult.defer, ⟨some 100, [(101, 110)], []⟩,
          some ⟨some 100, [(101, 110)], []⟩⟩ ∧
    reconcile ⟨some 100, [], []⟩ [110, 109, 108, 107, 106, 105, 104, 103, 102, 101] true true
        augmentWithAdjacencyHintsDefault updateAdjacencyHintsDashboard
      ≠ ReconcileRun.ok ⟨ReconcileResult.resolved 110, ⟨some 110, [], []⟩,
          some ⟨some 110, [], []⟩⟩ := by
  exact ⟨by decide, by decide⟩

/-- C2 amended: the recovery branch needs the whole observed batch to be
strictly older than the goal post.  For a valid cursor with
`goalPostId = 100`, an initial-pass reconcile on the first page with observed
batch `[95, 94, …, 86]` (IDs 95 down to 86, not containing 100) resets the
goal post to the newest observed ID `95`, clears the witnessed intervals and
the adjacency hints, persists, and returns `95`. -/
theorem claim_C2_deleted_goal_post_recovery :
    reconcile ⟨some 100, [(150, 160)], [(777, 155)]⟩
        [95, 94, 93, 92, 91, 90, 89, 88, 87, 86] true true
        augmentWithAdjacencyHintsDefault (updateAdjacencyHintsTagged none)
      = ReconcileRun.ok ⟨ReconcileResult.resolved 95, ⟨some 95, [], []⟩,
          some ⟨some 95, [], []⟩⟩ := by
  decide

/-! ## C9: a thrown reconcile writes nothing to storage -/

/-- C9: whenever `reconcile` throws (`Invariants broken` at the non-positive
goal-post check, the degenerate-range check, or the reached-without-change /
not-first-interval check, or `Attempted to save invalid cursors` inside
`saveCursors`), no storage write happened during the call: every throw site is
reached before the (single, validate-first) `saveCursors` write on its control
path, so the persisted cursor after the throw equals the persisted cursor at
entry. -/
theorem claim_C9_no_persist_on_throw (cursors : Cursors) (postIds : List Int)
    (initial isFirstPage : Bool)
    (augmentWithAdjacencyHints : Cursors → Int × Int → Int × Int)
    (updateAdjacencyHints : Cursors → List Int → Cursors)
    (persisted : Option Cursors)
    (h : reconcile cursors postIds initial isFirstPage augmentWithAdjacencyHints
        updateAdjacencyHints = ReconcileRun.err persisted) :
    persisted = none := by
  unfold reconcile reconcileMerge at h
  repeat' (first | (dsimp only at h) | split at h)
  all_goals
    first
      | exact saveAndReturn_err h
      | exact ReconcileRun.noConfusion h
      | exact (ReconcileRun.err.inj h).symm

/-- Witness for C9: a non-initial call whose single-element batch forms a
degenerate range and throws. -/
theorem claim_C9_witness :
    reconcile ⟨some 100, [], []⟩ [50] false false augmentWithAdjacencyHintsDefault
        updateAdjacencyHintsDashboard = ReconcileRun.err none ∧
    (none : Option Cursors) = none :=
  ⟨by decide,
    claim_C9_no_persist_on_throw ⟨some 100, [], []⟩ [50] false false
      augmentWithAdjacencyHintsDefault updateAdjacencyHintsDashboard none (by decide)⟩

/-! ## C7: initial pass whose batch is entirely below the goal post -/

/-- C7: on the initial pass with goal post `g` and the newest observed ID
`n < g`: on the first page `reconcile` resets the goal post to `n`, empties
the witnessed intervals, refreshes the hints (`updateAdjacencyHints`),
persists the refreshed cursor, and returns `n` (provided the refreshed cursor
passes the save-time validation, as the context-supplied hint updaters
guarantee); off the first page it returns `ABORT` with the cursor untouched in
memory and nothing persisted. -/
theorem claim_C7_initial_batch_below_goal_post (c : Cursors) (g n : Int) (rest : List Int)
    (augmentWithAdjacencyHints : Cursors → Int × Int → Int × Int)
    (updateAdjacencyHints : Cursors → List Int → Cursors)
    (hval : validCursors c = true) (hg : c.goalPostId = some g) (hlt : n < g) :
    (validCursors (updateAdjacencyHints
        { c with goalPostId := some n, witnessedPostIds := [] } (n :: rest)) = true →
      reconcile c (n :: rest) true true augmentWithAdjacencyHints updateAdjacencyHints =
        ReconcileRun.ok ⟨ReconcileResult.resolved n,
          updateAdjacencyHints { c with goalPostId := some n, witnessedPostIds := [] } (n :: rest),
          some (updateAdjacencyHints { c with goalPostId := some n, witnessedPostIds := [] }
            (n :: rest))⟩) ∧
    reconcile c (n :: rest) true false augmentWithAdjacencyHints updateAdjacencyHints =
      ReconcileRun.ok ⟨ReconcileResult.abort, c, none⟩ := by
  have hsafe := (validCursors_some hval hg).1
  constructor
  · intro hsave
    unfold reconcile
    rw [hg]
    simp [hsafe, hlt, saveAndReturn_of_valid _ hsave]
  · unfold reconcile
    rw [hg]
    simp [hsafe, hlt]

/-- Witness for C7 at a concrete cursor and batch. -/
theorem claim_C7_witness :
    validCursors ⟨some 100, [], []⟩ = true ∧ (95 : Int) < 100 ∧
    ((validCursors (updateAdjacencyHintsDashboard ⟨some 95, [], []⟩ [95, 94]) = true →
        reconcile ⟨some 100, [], []⟩ [95, 94] true true augmentWithAdjacencyHintsDefault
          updateAdjacencyHintsDashboard =
          ReconcileRun.ok ⟨ReconcileResult.resolved 95,
            updateAdjacencyHintsDashboard ⟨some 95, [], []⟩ [95, 94],
            some (updateAdjacencyHintsDashboard ⟨some 95, [], []⟩ [95, 94])⟩) ∧
      reconcile ⟨some 100, [], []⟩ [95, 94] true false augmentWithAdjacencyHintsDefault
        updateAdjacencyHintsDashboard =
        ReconcileRun.ok ⟨ReconcileResult.abort, ⟨some 100, [], []⟩, none⟩) :=
  ⟨by decide, by decide,
    claim_C7_initial_batch_below_goal_post ⟨some 100, [], []⟩ 100 95 [94]
      augmentWithAdjacencyHintsDefault updateAdjacencyHintsDashboard (by decide) rfl (by decide)⟩

/-! ## C8: correctness of `indexOfIntervalContainingValue` -/

theorem indexOfLoop_spec (v : Int) :
    ∀ (L : List (Int × Int)) (prev k : Int), 0 ≤ k → areSortedFrom prev L = true →
    (indexOfLoop L v k = -1 ∧ ∀ p ∈ L, ¬(p.1 ≤ v ∧ v ≤ p.2)) ∨
    (∃ j : Nat, j < L.length ∧ indexOfLoop L v k = k + (j : Int) ∧
      (L.getD j (0, 0)).1 ≤ v ∧ v ≤ (L.getD j (0, 0)).2) := by
  intro L
  induction L with
  | nil =>
    intro prev k hk h
    left
    exact ⟨rfl, fun p hp => absurd hp (List.not_mem_nil p)⟩
  | cons a rest ih =>
    obtain ⟨lo, hi⟩ := a
    intro prev k hk h
    rw [areSortedFrom_cons] at h
    obtain ⟨-, -, -, hlohi, hrest⟩ := h
    by_cases h1 : hi < v
    · rcases ih hi (k + 1) (by omega) hrest with ⟨heq, hnone⟩ | ⟨j, hj, heq, hc1, hc2⟩
      · left
        constructor
        · simp only [indexOfLoop, if_pos h1]
          exact heq
        · intro p hp
          rcases List.mem_cons.mp hp with hp | hp
          · rw [hp]; rintro ⟨-, hv⟩; omega
          · exact hnone p hp
      · right
        refine ⟨j + 1, by simp only [List.length_cons]; omega, ?_, ?_, ?_⟩
        · simp only [indexOfLoop, if_pos h1]
          rw [heq]
          push_cast
          ring
        · simpa [List.getD_cons_succ] using hc1
        · simpa [List.getD_cons_succ] using hc2
    · by_cases h2 : v < lo
      · left
        constructor
        · simp only [indexOfLoop, if_neg h1, if_pos h2]
        · intro p hp
          rcases List.mem_cons.mp hp with hp | hp
          · rw [hp]; rintro ⟨hv, -⟩; omega
          · have := (areSortedFrom_mem hrest p hp).1
            rintro ⟨hv, -⟩
            omega
      · right
        refine ⟨0, by simp, ?_, ?_, ?_⟩
        · simp only [indexOfLoop, if_neg h1, if_neg h2]
          simp
        · simpa [List.getD_cons_zero] using not_lt.mp h2
        · simpa [List.getD_cons_zero] using not_lt.mp h1

theorem contains_unique {L : List (Int × Int)} {prev v : Int}
    (h : areSortedFrom prev L = true) :
    ∀ p ∈ L, ∀ q ∈ L, p.1 ≤ v → v ≤ p.2 → q.1 ≤ v → v ≤ q.2 → p = q := by
  induction L generalizing prev with
  | nil => intro p hp; cases hp
  | cons a rest ih =>
    obtain ⟨lo, hi⟩ := a
    rw [areSortedFrom_cons] at h
    obtain ⟨-, -, -, hlh, h5⟩ := h
    intro p hp q hq hp1 hp2 hq1 hq2
    rcases List.mem_cons.mp hp with hp | hp <;> rcases List.mem_cons.mp hq with hq | hq
    · rw [hp, hq]
    · exfalso
      have hq1' := (areSortedFrom_mem h5 q hq).1
      rw [hp] at hp2
      omega
    · exfalso
      have hp1' := (areSortedFrom_mem h5 p hp).1
      rw [hq] at hq2
      omega
    · exact ih h5 p hp q hq hp1 hp2 hq1 hq2

/-- Full correctness of `indexOfIntervalContainingValue intervals value`:
the sentinel `-1` is returned exactly when no interval contains `value`, and a
non-sentinel return is a valid index whose interval contains `value`; such an
interval is unique in a valid set. -/
def findCorrect (intervals : List (Int × Int)) (value : Int) : Prop :=
  (indexOfIntervalContainingValue intervals value = -1 →
    ∀ p ∈ intervals, ¬(p.1 ≤ value ∧ value ≤ p.2)) ∧
  (indexOfIntervalContainingValue intervals value ≠ -1 →
    0 ≤ indexOfIntervalContainingValue intervals value ∧
    (indexOfIntervalContainingValue intervals value).toNat < intervals.length ∧
    (intervals.getD (indexOfIntervalContainingValue intervals value).toNat (0, 0)).1 ≤ value ∧
    value ≤ (intervals.getD (indexOfIntervalContainingValue intervals value).toNat (0, 0)).2) ∧
  (∀ p ∈ intervals, ∀ q ∈ intervals,
    p.1 ≤ value → value ≤ p.2 → q.1 ≤ value → value ≤ q.2 → p = q)

/-- C8: for every interval set satisfying the validity predicate and every
value, `indexOfIntervalContainingValue` returns the index of the unique
containing interval when one exists and the sentinel `-1` otherwise. -/
theorem claim_C8_index_of_interval_containing_value (intervals : List (Int × Int)) (value : Int)
    (h : areSortedDisjointSafeIntegerIntervals intervals = true) :
    findCorrect intervals value := by
  unfold areSortedDisjointSafeIntegerIntervals at h
  have hspec := indexOfLoop_spec value intervals negativeInfinity 0 le_rfl h
  unfold findCorrect indexOfIntervalContainingValue
  refine ⟨?_, ?_, contains_unique h⟩
  · intro hnone p hp
    rcases hspec with ⟨-, hs⟩ | ⟨j, hj, heq, hc1, hc2⟩
    · exact hs p hp
    · rw [heq] at hnone
      omega
  · intro hne
    rcases hspec with ⟨heq, -⟩ | ⟨j, hj, heq, hc1, hc2⟩
    · exact absurd heq hne
    · rw [heq]
      refine ⟨by omega, ?_, ?_, ?_⟩
      · simpa using hj
      · simpa using hc1
      · simpa using hc2

/-- Witness for C8 at a concrete valid set: a contained value and an
uncontained one. -/
theorem claim_C8_witness :
    areSortedDisjointSafeIntegerIntervals [(1, 5), (10, 20)] = true ∧
    findCorrect [(1, 5), (10, 20)] 12 :=
  ⟨by decide, claim_C8_index_of_interval_containing_value [(1, 5), (10, 20)] 12 (by decide)⟩

/-! ## Characterization of the interval-insertion loop -/

theorem takeWhile_eq_of_mem_eq {α : Type _} {p q : α → Bool} :
    ∀ l : List α, (∀ x ∈ l, p x = q x) → l.takeWhile p = l.takeWhile q
  | [], _ => rfl
  | a :: t, h => by
    have ha := h a (List.mem_cons_self a t)
    have ht := takeWhile_eq_of_mem_eq t (fun x hx => h x (List.mem_cons_of_mem a hx))
    simp only [List.takeWhile_cons, ha, ht]

/-- The run of intervals that the insertion loop for `[lo, hi]` absorbs, once
skipping is over: the longest prefix whose lower endpoints do not exceed
`hi`. -/
def runOf (hi : Int) (L : List (Int × Int)) : List (Int × Int) :=
  L.takeWhile (fun p => decide (p.1 ≤ hi))

/-- Lower endpoint of the merged interval produced by inserting `[lo, hi]`
into a list whose skipping phase is over. -/
def mergedLowOf (lo hi : Int) (L : List (Int × Int)) : Int :=
  match (runOf hi L).head? with
  | none => lo
  | some p => min p.1 lo

/-- Upper endpoint of the merged interval produced by inserting `[lo, hi]`. -/
def mergedHighOf (lo hi : Int) (L : List (Int × Int)) : Int :=
  match (runOf hi L).getLast? with
  | none => hi
  | some p => max hi p.2

/-- Number of preserved endpoints counted by the insertion loop. -/
def preservedOf (lo hi : Int) (L : List (Int × Int)) : Nat :=
  (match (runOf hi L).head? with
   | none => 0
   | some p => if p.1 ≤ lo then 1 else 0) +
  (match (runOf hi L).getLast? with
   | none => 0
   | some p => if hi ≤ p.2 then 1 else 0)

theorem addLoop_step {a b lo hi : Int} {k d e : Nat} {L : List (Int × Int)}
    (hblo : lo ≤ b) (ha : a ≤ hi) :
    addLoop ((a, b) :: L) ⟨k, d, e, lo, hi⟩ =
      addLoop L ⟨k, d + 1,
        e + ((if a ≤ lo then 1 else 0) + (if hi ≤ b then 1 else 0)),
        min a lo, max hi b⟩ := by
  simp only [addLoop, if_neg (not_lt.mpr hblo), if_neg (not_lt.mpr ha)]
  by_cases h1 : a ≤ lo <;> by_cases h2 : hi ≤ b
  · simp only [h1, h2, hblo, ha, and_self, and_true, true_and, if_true]
    congr 1
    simp only [AddState.mk.injEq, min_eq_left h1, max_eq_right h2, and_true, true_and,
      eq_self_iff_true]
    try omega
  · simp only [h1, h2, hblo, ha, and_true, true_and, and_false, if_true, if_false]
    congr 1
    simp only [AddState.mk.injEq, min_eq_left h1, max_eq_left (le_of_not_le h2), and_true,
      true_and, eq_self_iff_true]
    try omega
  · simp only [h1, h2, hblo, ha, and_true, true_and, false_and, if_true, if_false]
    congr 1
    simp only [AddState.mk.injEq, min_eq_right (le_of_not_le h1), max_eq_right h2, and_true,
      true_and, eq_self_iff_true]
    try omega
  · simp only [h1, h2, hblo, ha, and_true, true_and, false_and, and_false, if_true, if_false]
    congr 1
    simp only [AddState.mk.injEq, min_eq_right (le_of_not_le h1), max_eq_left (le_of_not_le h2),
      and_true, true_and, eq_self_iff_true]
    try omega

theorem mem_of_getLast?_eq {α : Type _} {l : List α} {x : α} (h : l.getLast? = some x) :
    x ∈ l := by
  rcases List.mem_getLast?_eq_getLast (show x ∈ l.getLast? by rw [h]; rfl) with ⟨hne, heq⟩
  rw [heq]
  exact List.getLast_mem hne

theorem mem_takeWhile_full {α : Type _} {p : α → Bool} :
    ∀ {l : List α} {x : α}, x ∈ l.takeWhile p → x ∈ l ∧ p x = true
  | [], x, h => by cases h
  | a :: t, x, h => by
    rw [List.takeWhile_cons] at h
    by_cases hpa : p a = true
    · rw [if_pos hpa] at h
      rcases List.mem_cons.mp h with h | h
      · subst h
        exact ⟨List.mem_cons_self _ _, hpa⟩
      · have hrec := mem_takeWhile_full h
        exact ⟨List.mem_cons_of_mem a hrec.1, hrec.2⟩
    · rw [if_neg hpa] at h
      cases h

theorem addLoop_merge :
    ∀ (L : List (Int × Int)) (prev lo hi : Int) (k d e : Nat),
      areSortedFrom prev L = true → lo < hi → (∀ p ∈ L, lo ≤ p.2) →
      addLoop L ⟨k, d, e, lo, hi⟩ =
        ⟨k, d + (runOf hi L).length, e + preservedOf lo hi L,
          mergedLowOf lo hi L, mergedHighOf lo hi L⟩ := by
  intro L
  induction L with
  | nil =>
    intro prev lo hi k d e _ _ _
    simp [addLoop, runOf, mergedLowOf, mergedHighOf, preservedOf]
  | cons q rest ih =>
    obtain ⟨a, b⟩ := q
    intro prev lo hi k d e hs hlt hb
    rw [areSortedFrom_cons] at hs
    obtain ⟨-, -, -, hab, hs'⟩ := hs
    have hblo : lo ≤ b := hb (a, b) (List.mem_cons_self _ _)
    have hrest_gt : ∀ p ∈ rest, b < p.1 := fun p hp => (areSortedFrom_mem hs' p hp).1
    have hrest_lt : ∀ p ∈ rest, p.1 < p.2 := fun p hp => (areSortedFrom_mem hs' p hp).2.1
    by_cases hbreak : hi < a
    · have hrun : runOf hi ((a, b) :: rest) = [] := by
        simp [runOf, List.takeWhile_cons, not_le.mpr hbreak]
      simp only [addLoop, if_neg (not_lt.mpr hblo), if_pos hbreak]
      simp [hrun, mergedLowOf, mergedHighOf, preservedOf]
    · have ha : a ≤ hi := not_lt.mp hbreak
      have hrun : runOf hi ((a, b) :: rest) = (a, b) :: runOf hi rest := by
        simp [runOf, List.takeWhile_cons, ha]
      have hminle : min a lo ≤ lo := min_le_right a lo
      have hb' : ∀ p ∈ rest, min a lo ≤ p.2 := by
        intro p hp
        have h1 := hrest_gt p hp
        have h2 := hrest_lt p hp
        exact le_trans hminle (by omega)
      have hlt' : min a lo < max hi b :=
        lt_of_le_of_lt hminle (lt_of_lt_of_le hlt (le_max_left hi b))
      have hrunEq : runOf (max hi b) rest = runOf hi rest := by
        apply takeWhile_eq_of_mem_eq
        intro x hx
        have hbx := hrest_gt x hx
        apply decide_eq_decide.mpr
        constructor
        · intro h
          rcases le_max_iff.mp h with h | h
          · exact h
          · omega
        · intro h
          exact le_trans h (le_max_left hi b)
      rw [addLoop_step hblo ha, ih b (min a lo) (max hi b) k (d + 1)
        (e + ((if a ≤ lo then 1 else 0) + (if hi ≤ b then 1 else 0))) hs' hlt' hb']
      rcases hM : runOf hi rest with _ | ⟨mq, mt⟩
      · rw [hM] at hrun
        simp only [mergedLowOf, mergedHighOf, preservedOf, hrunEq, hrun, hM,
          List.head?_cons, List.head?_nil, List.getLast?_nil, List.getLast?_singleton,
          List.length_cons, List.length_nil]
        dsimp only
        congr 1 <;> omega
      · rw [hM] at hrun
        have hmq : mq ∈ rest ∧ (decide (mq.1 ≤ hi)) = true := by
          apply mem_takeWhile_full
          rw [show rest.takeWhile (fun p => decide (p.1 ≤ hi)) = runOf hi rest from rfl, hM]
          exact List.mem_cons_self _ _
        have hmq1 : b < mq.1 := hrest_gt mq hmq.1
        have hmq2 : mq.1 ≤ hi := of_decide_eq_true hmq.2
        rcases hr : (mq :: mt).getLast? with _ | r
        · exact absurd (List.getLast?_eq_none_iff.mp hr) (List.cons_ne_nil mq mt)
        · have hrmem : r ∈ rest ∧ (decide (r.1 ≤ hi)) = true := by
            apply mem_takeWhile_full
            rw [show rest.takeWhile (fun p => decide (p.1 ≤ hi)) = runOf hi rest from rfl, hM]
            exact mem_of_getLast?_eq hr
          have hr1 : b < r.1 := hrest_gt r hrmem.1
          have hr2 : r.1 < r.2 := hrest_lt r hrmem.1
          have hbr2 : b ≤ r.2 := by omega
          have hnotb : ¬ hi ≤ b := by omega
          have hnotmq : ¬ mq.1 ≤ min a lo := by
            have hm := min_le_right a lo
            omega
          simp only [mergedLowOf, mergedHighOf, preservedOf, hrunEq, hrun, hM,
            List.head?_cons, List.getLast?_cons_cons, hr, List.length_cons]
          dsimp only
          by_cases hhr : hi ≤ r.2
          · simp only [if_pos hhr, if_pos (max_le hhr hbr2), if_neg hnotb, if_neg hnotmq]
            congr 1 <;> omega
          · simp only [if_neg hhr,
              if_neg (fun hcon => hhr (le_trans (le_max_left hi b) hcon)),
              if_neg hnotb, if_neg hnotmq]
            congr 1 <;> omega

theorem addLoop_skip :
    ∀ (L : List (Int × Int)) (lo hi : Int) (k d e : Nat),
      addLoop L ⟨k, d, e, lo, hi⟩ =
        addLoop (L.dropWhile (fun p => decide (p.2 < lo)))
          ⟨k + (L.takeWhile (fun p => decide (p.2 < lo))).length, d, e, lo, hi⟩ := by
  intro L
  induction L with
  | nil =>
    intro lo hi k d e
    simp
  | cons q rest ih =>
    obtain ⟨a, b⟩ := q
    intro lo hi k d e
    by_cases hb : b < lo
    · have h1 : addLoop ((a, b) :: rest) ⟨k, d, e, lo, hi⟩ =
          addLoop rest ⟨k + 1, d, e, lo, hi⟩ := by
        simp only [addLoop, if_pos hb]
      rw [h1, ih lo hi (k + 1) d e]
      simp only [List.dropWhile_cons, List.takeWhile_cons, hb, decide_True, if_true,
        List.length_cons]
      have harith : k + 1 + (rest.takeWhile (fun p => decide (p.2 < lo))).length
          = k + ((rest.takeWhile (fun p => decide (p.2 < lo))).length + 1) := by omega
      rw [harith]
    · simp [List.dropWhile_cons, List.takeWhile_cons, hb]

theorem areSortedFrom_dropWhile {p : Int × Int → Bool} {L : List (Int × Int)} {prev : Int}
    (h : areSortedFrom prev L = true) : areSortedFrom prev (L.dropWhile p) = true := by
  induction L generalizing prev with
  | nil => exact h
  | cons q rest ih =>
    obtain ⟨a, b⟩ := q
    rw [areSortedFrom_cons] at h
    obtain ⟨h1, h2, h3, h4, h5⟩ := h
    rw [List.dropWhile_cons]
    by_cases hq : p (a, b) = true
    · rw [if_pos hq]
      exact ih (areSortedFrom_weaken h5 (le_of_lt (lt_trans h3 h4)))
    · rw [if_neg hq]
      rw [areSortedFrom_cons]
      exact ⟨h1, h2, h3, h4, h5⟩

theorem head_dropWhile_false {α : Type _} {p : α → Bool} {l : List α} {y : α} {t : List α}
    (h : l.dropWhile p = y :: t) : p y = false := by
  induction l with
  | nil => cases h
  | cons a l' ih =>
    rw [List.dropWhile_cons] at h
    by_cases hp : p a = true
    · rw [if_pos hp] at h
      exact ih h
    · rw [if_neg hp] at h
      rw [Bool.not_eq_true] at hp
      obtain ⟨hay, -⟩ := List.cons.injEq a l' y t ▸ h
      rw [← hay]
      exact hp

theorem take_length_takeWhile {α : Type _} (p : α → Bool) :
    ∀ l : List α, l.take (l.takeWhile p).length = l.takeWhile p := by
  intro l
  induction l with
  | nil => rfl
  | cons a t ih =>
    rw [List.takeWhile_cons]
    by_cases hp : p a = true
    · rw [if_pos hp]
      simp only [List.length_cons, List.take_succ_cons]
      rw [ih]
    · rw [if_neg hp]
      rfl

theorem drop_length_takeWhile_add {α : Type _} (p : α → Bool) :
    ∀ (l : List α) (n : Nat), l.drop ((l.takeWhile p).length + n) = (l.dropWhile p).drop n := by
  intro l
  induction l with
  | nil => intro n; simp
  | cons a t ih =>
    intro n
    rw [List.takeWhile_cons, List.dropWhile_cons]
    by_cases hp : p a = true
    · rw [if_pos hp, if_pos hp]
      simp only [List.length_cons]
      have harith : (t.takeWhile p).length + 1 + n = ((t.takeWhile p).length + n) + 1 := by omega
      rw [harith, List.drop_succ_cons]
      exact ih n
    · rw [if_neg hp, if_neg hp]
      simp

theorem drop_length_takeWhile {α : Type _} (p : α → Bool) (l : List α) :
    l.drop (l.takeWhile p).length = l.dropWhile p := by
  simpa using drop_length_takeWhile_add p l 0

/-- The upper endpoint of the last interval of `xs`, or `prev` when `xs` is
empty: the bound from which a list following `xs` must be sorted. -/
def lastUpperD (prev : Int) (xs : List (Int × Int)) : Int :=
  match xs.getLast? with
  | none => prev
  | some p => p.2

theorem lastUpperD_cons (prev : Int) (x : Int × Int) (xs : List (Int × Int)) :
    lastUpperD prev (x :: xs) = lastUpperD x.2 xs := by
  cases xs with
  | nil => rfl
  | cons y ys =>
    unfold lastUpperD
    rw [List.getLast?_cons_cons]
    rcases hg : (y :: ys).getLast? with _ | p
    · exact absurd (List.getLast?_eq_none_iff.mp hg) (List.cons_ne_nil y ys)
    · rfl

theorem areSortedFrom_append_split {Y : List (Int × Int)} :
    ∀ {X : List (Int × Int)} {prev : Int}, areSortedFrom prev (X ++ Y) = true →
      areSortedFrom prev X = true ∧ areSortedFrom (lastUpperD prev X) Y = true := by
  intro X
  induction X with
  | nil =>
    intro prev h
    exact ⟨rfl, h⟩
  | cons x xs ih =>
    intro prev h
    obtain ⟨a, b⟩ := x
    rw [List.cons_append, areSortedFrom_cons] at h
    obtain ⟨h1, h2, h3, h4, h5⟩ := h
    obtain ⟨hxs, hY⟩ := ih h5
    refine ⟨?_, ?_⟩
    · rw [areSortedFrom_cons]
      exact ⟨h1, h2, h3, h4, hxs⟩
    · rw [lastUpperD_cons]
      exact hY

theorem areSortedFrom_append_build {Y : List (Int × Int)} :
    ∀ {X : List (Int × Int)} {prev : Int}, areSortedFrom prev X = true →
      areSortedFrom (lastUpperD prev X) Y = true →
      areSortedFrom prev (X ++ Y) = true := by
  intro X
  induction X with
  | nil =>
    intro prev _ hY
    exact hY
  | cons x xs ih =>
    intro prev hX hY
    obtain ⟨a, b⟩ := x
    rw [areSortedFrom_cons] at hX
    obtain ⟨h1, h2, h3, h4, h5⟩ := hX
    rw [lastUpperD_cons] at hY
    rw [List.cons_append, areSortedFrom_cons]
    exact ⟨h1, h2, h3, h4, ih h5 hY⟩

/-- Intervals entirely below the inserted interval, skipped by the loop. -/
def skippedOf (lo : Int) (L : List (Int × Int)) : List (Int × Int) :=
  L.takeWhile (fun p => decide (p.2 < lo))

/-- The list from the first interval not entirely below the inserted one. -/
def suffixOf (lo : Int) (L : List (Int × Int)) : List (Int × Int) :=
  L.dropWhile (fun p => decide (p.2 < lo))

/-- Intervals entirely above the inserted interval, kept after the merge. -/
def keptTailOf (lo hi : Int) (L : List (Int × Int)) : List (Int × Int) :=
  (suffixOf lo L).dropWhile (fun p => decide (p.1 ≤ hi))

theorem suffix_upper_ge {L : List (Int × Int)} {prev lo : Int}
    (hs : areSortedFrom prev L = true) : ∀ p ∈ suffixOf lo L, lo ≤ p.2 := by
  have hsuf : areSortedFrom prev (suffixOf lo L) = true := areSortedFrom_dropWhile hs
  rcases hY : suffixOf lo L with _ | ⟨y, t⟩
  · intro p hp
    cases hp
  · obtain ⟨a, b⟩ := y
    have hylo : lo ≤ b := by
      have hfalse := head_dropWhile_false (show L.dropWhile _ = (a, b) :: t from hY)
      have := of_decide_eq_false hfalse
      omega
    rw [hY] at hsuf
    rw [areSortedFrom_cons] at hsuf
    obtain ⟨-, -, -, hab, ht⟩ := hsuf
    intro p hp
    rcases List.mem_cons.mp hp with hp | hp
    · rw [hp]
      exact hylo
    · have hmem := areSortedFrom_mem ht p hp
      omega

theorem addLoop_full (L : List (Int × Int)) (prev lo hi : Int)
    (hs : areSortedFrom prev L = true) (hlt : lo < hi) :
    addLoop L ⟨0, 0, 0, lo, hi⟩ =
      ⟨(skippedOf lo L).length, (runOf hi (suffixOf lo L)).length,
        preservedOf lo hi (suffixOf lo L), mergedLowOf lo hi (suffixOf lo L),
        mergedHighOf lo hi (suffixOf lo L)⟩ := by
  rw [addLoop_skip L lo hi 0 0 0]
  have hsuf : areSortedFrom prev (suffixOf lo L) = true := areSortedFrom_dropWhile hs
  rw [addLoop_merge (L.dropWhile (fun p => decide (p.2 < lo))) prev lo hi
    (0 + (L.takeWhile (fun p => decide (p.2 < lo))).length) 0 0 hsuf hlt
    (suffix_upper_ge hs)]
  congr 1 <;> simp [skippedOf, suffixOf]

theorem addToSorted_eq (L : List (Int × Int)) (prev lo hi : Int)
    (hs : areSortedFrom prev L = true) (hlt : lo < hi) :
    addToSortedDisjointSafeIntegerIntervals L (lo, hi) =
      if (runOf hi (suffixOf lo L)).length = 1 ∧ preservedOf lo hi (suffixOf lo L) = 2 then
        (false, L)
      else
        (true, skippedOf lo L ++
          (mergedLowOf lo hi (suffixOf lo L), mergedHighOf lo hi (suffixOf lo L)) ::
            keptTailOf lo hi L) := by
  unfold addToSortedDisjointSafeIntegerIntervals
  rw [addLoop_full L prev lo hi hs hlt]
  dsimp only
  by_cases hcond : (runOf hi (suffixOf lo L)).length = 1 ∧ preservedOf lo hi (suffixOf lo L) = 2
  · rw [if_pos hcond, if_pos hcond]
  · rw [if_neg hcond, if_neg hcond]
    simp only [skippedOf, suffixOf, keptTailOf, runOf]
    rw [take_length_takeWhile, drop_length_takeWhile_add, drop_length_takeWhile]

/-! ## C5: insertion preserves the sorted-disjoint invariant -/

theorem mem_of_head?_eq {α : Type _} {l : List α} {x : α} (h : l.head? = some x) : x ∈ l := by
  cases l with
  | nil => cases h
  | cons a t =>
    rw [List.head?_cons] at h
    rw [List.mem_cons]
    left
    exact (Option.some.inj h).symm

theorem isSafeInteger_min {x y : Int} (hx : isSafeInteger x = true)
    (hy : isSafeInteger y = true) : isSafeInteger (min x y) = true := by
  rcases min_choice x y with h | h <;> rw [h] <;> assumption

theorem isSafeInteger_max {x y : Int} (hx : isSafeInteger x = true)
    (hy : isSafeInteger y = true) : isSafeInteger (max x y) = true := by
  rcases max_choice x y with h | h <;> rw [h] <;> assumption

theorem lastUpperD_skipped_lt {L : List (Int × Int)} {prev lo : Int} (hprev : prev < lo) :
    lastUpperD prev (skippedOf lo L) < lo := by
  unfold lastUpperD
  rcases hgl : (skippedOf lo L).getLast? with _ | p
  · exact hprev
  · have hp := mem_takeWhile_full
      (show p ∈ L.takeWhile (fun p => decide (p.2 < lo)) from mem_of_getLast?_eq hgl)
    exact of_decide_eq_true hp.2

theorem addToSorted_preserves_sortedFrom {L : List (Int × Int)} {prev lo hi : Int}
    (hs : areSortedFrom prev L = true) (hlosafe : isSafeInteger lo = true)
    (hhisafe : isSafeInteger hi = true) (hlt : lo < hi) (hprev : prev < lo) :
    areSortedFrom prev (addToSortedDisjointSafeIntegerIntervals L (lo, hi)).2 = true := by
  rw [addToSorted_eq L prev lo hi hs hlt]
  by_cases hcond : (runOf hi (suffixOf lo L)).length = 1 ∧ preservedOf lo hi (suffixOf lo L) = 2
  · rw [if_pos hcond]
    exact hs
  · rw [if_neg hcond]
    dsimp only
    have hXY : skippedOf lo L ++ suffixOf lo L = L :=
      List.takeWhile_append_dropWhile _ L
    have hs' : areSortedFrom prev (skippedOf lo L ++ suffixOf lo L) = true := by
      rw [hXY]; exact hs
    obtain ⟨hX, hY⟩ := areSortedFrom_append_split hs'
    have hMZ : runOf hi (suffixOf lo L) ++ keptTailOf lo hi L = suffixOf lo L :=
      List.takeWhile_append_dropWhile _ _
    have hY' : areSortedFrom (lastUpperD prev (skippedOf lo L))
        (runOf hi (suffixOf lo L) ++ keptTailOf lo hi L) = true := by
      rw [hMZ]; exact hY
    obtain ⟨hM, hZ⟩ := areSortedFrom_append_split hY'
    have hu : lastUpperD prev (skippedOf lo L) < lo := lastUpperD_skipped_lt hprev
    apply areSortedFrom_append_build hX
    rw [areSortedFrom_cons]
    rcases hMcase : runOf hi (suffixOf lo L) with _ | ⟨q, mt⟩
    · simp only [mergedLowOf, mergedHighOf, hMcase, List.head?_nil, List.getLast?_nil]
      refine ⟨hlosafe, hhisafe, hu, hlt, ?_⟩
      rw [hMcase] at hZ
      apply areSortedFrom_retarget hZ
      intro z hz
      rcases hZc : keptTailOf lo hi L with _ | ⟨z0, zt⟩
      · rw [hZc] at hz; cases hz
      · rw [hZc, List.head?_cons] at hz
        have hzz : z0 = z := Option.some.inj (Option.mem_def.mp hz)
        have hf := head_dropWhile_false
          (show (suffixOf lo L).dropWhile (fun p => decide (p.1 ≤ hi)) = z0 :: zt from hZc)
        have hfz := of_decide_eq_false hf
        rw [← hzz]
        omega
    · rcases hr : (q :: mt).getLast? with _ | r
      · exact absurd (List.getLast?_eq_none_iff.mp hr) (List.cons_ne_nil _ _)
      simp only [mergedLowOf, mergedHighOf, hMcase, List.head?_cons, hr]
      have hqmem : q ∈ suffixOf lo L ∧ decide (q.1 ≤ hi) = true := by
        apply mem_takeWhile_full
        rw [show (suffixOf lo L).takeWhile (fun p => decide (p.1 ≤ hi)) =
          runOf hi (suffixOf lo L) from rfl, hMcase]
        exact List.mem_cons_self _ _
      have hrmem : r ∈ suffixOf lo L ∧ decide (r.1 ≤ hi) = true := by
        apply mem_takeWhile_full
        rw [show (suffixOf lo L).takeWhile (fun p => decide (p.1 ≤ hi)) =
          runOf hi (suffixOf lo L) from rfl, hMcase]
        exact mem_of_getLast?_eq hr
      have hqY := areSortedFrom_mem hY q hqmem.1
      have hrY := areSortedFrom_mem hY r hrmem.1
      refine ⟨isSafeInteger_min hqY.2.2.1 hlosafe, isSafeInteger_max hhisafe hrY.2.2.2,
        lt_min hqY.1 hu,
        lt_of_le_of_lt (min_le_right q.1 lo) (lt_of_lt_of_le hlt (le_max_left hi r.2)), ?_⟩
      have hlastM : lastUpperD (lastUpperD prev (skippedOf lo L))
          (runOf hi (suffixOf lo L)) = r.2 := by
        rw [hMcase]
        unfold lastUpperD
        rw [hr]
      rw [hlastM] at hZ
      apply areSortedFrom_retarget hZ
      intro z hz
      rcases hZc : keptTailOf lo hi L with _ | ⟨z0, zt⟩
      · rw [hZc] at hz; cases hz
      · rw [hZc, List.head?_cons] at hz
        have hzz : z0 = z := Option.some.inj (Option.mem_def.mp hz)
        have hf := head_dropWhile_false
          (show (suffixOf lo L).dropWhile (fun p => decide (p.1 ≤ hi)) = z0 :: zt from hZc)
        have hfz := of_decide_eq_false hf
        rw [hZc] at hZ
        obtain ⟨za, zb⟩ := z0
        rw [areSortedFrom_cons] at hZ
        rw [← hzz]
        have h1 : hi < za := by simpa using hfz
        have h2 : r.2 < za := hZ.2.2.1
        exact max_lt h1 h2

/-- C5: for every interval set satisfying the sorted-disjoint validity
predicate and every safe-integer interval `[lo, hi]` with `lo < hi`, inserting
`[lo, hi]` via `addToSortedDisjointSafeIntegerIntervals` again satisfies the
validity predicate. -/
theorem claim_C5_insert_preserves_validity (S : List (Int × Int)) (lo hi : Int)
    (hS : areSortedDisjointSafeIntegerIntervals S = true)
    (hlosafe : isSafeInteger lo = true) (hhisafe : isSafeInteger hi = true)
    (hlt : lo < hi) :
    areSortedDisjointSafeIntegerIntervals
      (addToSortedDisjointSafeIntegerIntervals S (lo, hi)).2 = true := by
  unfold areSortedDisjointSafeIntegerIntervals at hS ⊢
  apply addToSorted_preserves_sortedFrom hS hlosafe hhisafe hlt
  have hbound : -maxSafeInteger ≤ lo := by
    have := of_decide_eq_true (Bool.and_elim_left hlosafe)
    exact this
  unfold negativeInfinity
  unfold maxSafeInteger at hbound
  omega

/-- Witness for C5 at a concrete valid set and interval. -/
theorem claim_C5_witness :
    areSortedDisjointSafeIntegerIntervals [(1, 5), (10, 20)] = true ∧
    areSortedDisjointSafeIntegerIntervals
      (addToSortedDisjointSafeIntegerIntervals [(1, 5), (10, 20)] (4, 12)).2 = true :=
  ⟨by decide,
    claim_C5_insert_preserves_validity [(1, 5), (10, 20)] 4 12 (by decide) (by decide)
      (by decide) (by decide)⟩

/-! ## C6: `false` return means covered by one interval, and no change -/

theorem mem_of_mem_dropWhile {α : Type _} {p : α → Bool} :
    ∀ {l : List α} {x : α}, x ∈ l.dropWhile p → x ∈ l
  | [], x, h => h
  | a :: t, x, h => by
    rw [List.dropWhile_cons] at h
    by_cases hp : p a = true
    · rw [if_pos hp] at h
      exact List.mem_cons_of_mem a (mem_of_mem_dropWhile h)
    · rw [if_neg hp] at h
      exact h

theorem covered_imp_run_singleton {S : List (Int × Int)} {prev lo hi : Int}
    (hs : areSortedFrom prev S = true) (hlt : lo < hi) {p : Int × Int}
    (hpS : p ∈ S) (hp1 : p.1 ≤ lo) (hp2 : hi ≤ p.2) :
    runOf hi (suffixOf lo S) = [p] := by
  have hXY : skippedOf lo S ++ suffixOf lo S = S := List.takeWhile_append_dropWhile _ S
  have hpnotX : p ∉ skippedOf lo S := by
    intro hmem
    have h := mem_takeWhile_full hmem
    have hplo := of_decide_eq_true h.2
    omega
  have hpY : p ∈ suffixOf lo S := by
    have hm : p ∈ skippedOf lo S ++ suffixOf lo S := by rw [hXY]; exact hpS
    rcases List.mem_append.mp hm with h | h
    · exact absurd h hpnotX
    · exact h
  have hs' : areSortedFrom prev (skippedOf lo S ++ suffixOf lo S) = true := by
    rw [hXY]; exact hs
  obtain ⟨-, hY⟩ := areSortedFrom_append_split hs'
  rcases hYc : suffixOf lo S with _ | ⟨y, t⟩
  · rw [hYc] at hpY; cases hpY
  · obtain ⟨ya, yb⟩ := y
    have hylo : lo ≤ yb := by
      have hf := head_dropWhile_false
        (show S.dropWhile (fun p => decide (p.2 < lo)) = (ya, yb) :: t from hYc)
      have := of_decide_eq_false hf
      simpa using this
    rw [hYc] at hpY hY
    rw [areSortedFrom_cons] at hY
    obtain ⟨-, -, -, hyab, hYt⟩ := hY
    have hpy : p = (ya, yb) := by
      rcases List.mem_cons.mp hpY with h | h
      · exact h
      · exfalso
        have hm := areSortedFrom_mem hYt p h
        omega
    unfold runOf
    rw [List.takeWhile_cons]
    have hpa : (decide ((ya, yb).1 ≤ hi)) = true := by
      apply decide_eq_true
      have : p.1 = ya := by rw [hpy]
      simp only
      omega
    rw [if_pos hpa]
    have hyb2 : hi ≤ yb := by
      have : p.2 = yb := by rw [hpy]
      omega
    cases t with
    | nil => rw [hpy]; rfl
    | cons w wt =>
      rw [List.takeWhile_cons]
      have hw := areSortedFrom_mem hYt w (List.mem_cons_self w wt)
      have hwgt : ¬ (w.1 ≤ hi) := by
        simp only at hw
        omega
      rw [if_neg (by simpa using hwgt)]
      rw [hpy]

/-- Correctness of the changed-flag of
`addToSortedDisjointSafeIntegerIntervals S (lo, hi)`: the flag is `false`
exactly when some existing interval of `S` already covers `[lo, hi]` (merging
touched exactly that one interval and preserved both its endpoints), and in
that case the set is returned unchanged. -/
def insertUnchangedCorrect (S : List (Int × Int)) (lo hi : Int) : Prop :=
  ((addToSortedDisjointSafeIntegerIntervals S (lo, hi)).1 = false ↔
    ∃ p ∈ S, p.1 ≤ lo ∧ hi ≤ p.2) ∧
  ((addToSortedDisjointSafeIntegerIntervals S (lo, hi)).1 = false →
    (addToSortedDisjointSafeIntegerIntervals S (lo, hi)).2 = S)

/-- C6: for every valid interval set `S` and interval `[lo, hi]` with
`lo < hi`, the insertion reports `false` exactly when `[lo, hi]` is already
covered by a single existing interval of `S`, and then leaves `S` unchanged;
in every other case it reports `true`. -/
theorem claim_C6_insert_idempotent_no_change (S : List (Int × Int)) (lo hi : Int)
    (hS : areSortedDisjointSafeIntegerIntervals S = true) (hlt : lo < hi) :
    insertUnchangedCorrect S lo hi := by
  unfold areSortedDisjointSafeIntegerIntervals at hS
  unfold insertUnchangedCorrect
  rw [addToSorted_eq S negativeInfinity lo hi hS hlt]
  by_cases hcond : (runOf hi (suffixOf lo S)).length = 1 ∧
      preservedOf lo hi (suffixOf lo S) = 2
  · rw [if_pos hcond]
    refine ⟨⟨fun _ => ?_, fun _ => rfl⟩, fun _ => rfl⟩
    obtain ⟨hlen, hpe⟩ := hcond
    rcases hMc : runOf hi (suffixOf lo S) with _ | ⟨p, mt⟩
    · rw [hMc] at hlen
      simp at hlen
    · have hmt : mt = [] := by
        rw [hMc] at hlen
        simpa using hlen
      subst hmt
      have hpe' : preservedOf lo hi (suffixOf lo S) =
          (if p.1 ≤ lo then 1 else 0) + (if hi ≤ p.2 then 1 else 0) := by
        unfold preservedOf
        rw [hMc]
        simp
      rw [hpe'] at hpe
      have hmem := mem_takeWhile_full
        (show p ∈ (suffixOf lo S).takeWhile (fun p => decide (p.1 ≤ hi)) by
          rw [show (suffixOf lo S).takeWhile (fun p => decide (p.1 ≤ hi)) =
            runOf hi (suffixOf lo S) from rfl, hMc]
          exact List.mem_cons_self _ _)
      refine ⟨p, mem_of_mem_dropWhile hmem.1, ?_, ?_⟩
      · by_contra h
        rw [if_neg h] at hpe
        split_ifs at hpe <;> omega
      · by_contra h
        rw [if_neg h] at hpe
        split_ifs at hpe <;> omega
  · rw [if_neg hcond]
    refine ⟨⟨fun h => Bool.noConfusion h, ?_⟩, fun h => Bool.noConfusion h⟩
    rintro ⟨p, hpS, hp1, hp2⟩
    exfalso
    apply hcond
    have hM := covered_imp_run_singleton hS hlt hpS hp1 hp2
    constructor
    · rw [hM]
      rfl
    · unfold preservedOf
      rw [hM]
      simp [hp1, hp2]

/-- Witness for C6: re-inserting an interval covered by an existing one. -/
theorem claim_C6_witness :
    areSortedDisjointSafeIntegerIntervals [(1, 10), (20, 30)] = true ∧ (3 : Int) < 7 ∧
    insertUnchangedCorrect [(1, 10), (20, 30)] 3 7 :=
  ⟨by decide, by decide,
    claim_C6_insert_idempotent_no_change [(1, 10), (20, 30)] 3 7 (by decide) (by decide)⟩

/-! ## C4: the resolved ID is the tightest observed ID at or below the goal post -/

theorem indexOfLoop_ge : ∀ (l : List (Int × Int)) (v k : Int),
    indexOfLoop l v k = -1 ∨ k ≤ indexOfLoop l v k := by
  intro l
  induction l with
  | nil =>
    intro v k
    left
    rfl
  | cons q rest ih =>
    obtain ⟨a, b⟩ := q
    intro v k
    simp only [indexOfLoop]
    by_cases h1 : b < v
    · rw [if_pos h1]
      rcases ih v (k + 1) with h | h
      · left; exact h
      · right; omega
    · rw [if_neg h1]
      by_cases h2 : v < a
      · rw [if_pos h2]
        left
        rfl
      · rw [if_neg h2]
        right
        exact le_refl k

theorem indexOf_zero_head {L : List (Int × Int)} {g : Int}
    (h : indexOfIntervalContainingValue L g = 0) :
    ∃ p t, L = p :: t ∧ p.1 ≤ g ∧ g ≤ p.2 := by
  cases L with
  | nil => exact absurd (show (-1 : Int) = 0 from h) (by decide)
  | cons q t =>
    obtain ⟨a, b⟩ := q
    unfold indexOfIntervalContainingValue indexOfLoop at h
    by_cases h1 : b < g
    · rw [if_pos h1] at h
      rcases indexOfLoop_ge t g (0 + 1) with hh | hh
      · rw [hh] at h
        exact absurd h (by decide)
      · exact absurd h (by omega)
    · rw [if_neg h1] at h
      by_cases h2 : g < a
      · rw [if_pos h2] at h
        exact absurd h (by decide)
      · exact ⟨(a, b), t, rfl, not_lt.mp h2, not_lt.mp h1⟩

theorem getD_mem_of_lt {α : Type _} (l : List α) (j : Nat) (d : α) (h : j < l.length) :
    l.getD j d ∈ l := by
  rw [List.getD_eq_getElem l d h]
  exact List.getElem_mem h

theorem merged_head_contains_imp {w : List (Int × Int)} {g lo hi : Int}
    (hw : areSortedFrom g w = true) (hlt : lo < hi)
    (hidx : indexOfIntervalContainingValue
      (addToSortedDisjointSafeIntegerIntervals w (lo, hi)).2 g = 0) :
    lo ≤ g := by
  rw [addToSorted_eq w g lo hi hw hlt] at hidx
  by_cases hcond : (runOf hi (suffixOf lo w)).length = 1 ∧
      preservedOf lo hi (suffixOf lo w) = 2
  · rw [if_pos hcond] at hidx
    dsimp only at hidx
    obtain ⟨p, t, hpt, hp1, hp2⟩ := indexOf_zero_head hidx
    have hmem : p ∈ w := by rw [hpt]; exact List.mem_cons_self _ _
    have hgt := (areSortedFrom_mem hw p hmem).1
    omega
  · rw [if_neg hcond] at hidx
    dsimp only at hidx
    obtain ⟨p, t, hpt, hp1, hp2⟩ := indexOf_zero_head hidx
    rcases hX : skippedOf lo w with _ | ⟨x, xs⟩
    · rw [hX, List.nil_append] at hpt
      obtain ⟨hhd, -⟩ := List.cons_eq_cons.mp hpt
      rw [← hhd] at hp1
      dsimp only at hp1
      rcases hMc : runOf hi (suffixOf lo w) with _ | ⟨q, mt⟩
      · have hnl : mergedLowOf lo hi (suffixOf lo w) = lo := by
          simp [mergedLowOf, hMc]
        rw [hnl] at hp1
        exact hp1
      · have hnl : mergedLowOf lo hi (suffixOf lo w) = min q.1 lo := by
          simp [mergedLowOf, hMc]
        rw [hnl] at hp1
        have hqsuf : q ∈ suffixOf lo w := by
          have hqm : q ∈ (suffixOf lo w).takeWhile (fun p => decide (p.1 ≤ hi)) := by
            rw [show (suffixOf lo w).takeWhile (fun p => decide (p.1 ≤ hi)) =
              runOf hi (suffixOf lo w) from rfl, hMc]
            exact List.mem_cons_self _ _
          exact (mem_takeWhile_full hqm).1
        have hqw : q ∈ w := mem_of_mem_dropWhile hqsuf
        have hgt := (areSortedFrom_mem hw q hqw).1
        omega
    · rw [hX, List.cons_append] at hpt
      obtain ⟨hhd, -⟩ := List.cons_eq_cons.mp hpt
      have hxw : x ∈ w := by
        have hxX : x ∈ skippedOf lo w := by rw [hX]; exact List.mem_cons_self _ _
        exact (mem_takeWhile_full hxX).1
      have hgt := (areSortedFrom_mem hw x hxw).1
      rw [hhd] at hgt
      omega

theorem reconcileMerge_resolved {c : Cursors} {postIds : List Int} {g : Int}
    {range : Int × Int} {update : Cursors → List Int → Cursors}
    {o : ReconcileOutcome} {r : Int}
    (hw : areSortedFrom g c.witnessedPostIds = true)
    (hrun : reconcileMerge c postIds g range update = ReconcileRun.ok o)
    (hres : o.result = ReconcileResult.resolved r) :
    range.1 ≤ g ∧ r = findBestGoalPostId g postIds := by
  obtain ⟨lo, hi⟩ := range
  unfold reconcileMerge at hrun
  dsimp only at hrun
  by_cases hdeg : hi ≤ lo
  · rw [if_pos (decide_eq_true hdeg)] at hrun
    exact ReconcileRun.noConfusion hrun
  · have hlt : lo < hi := not_le.mp hdeg
    rw [if_neg (fun hcon => hdeg (of_decide_eq_true hcon))] at hrun
    by_cases hidx : (indexOfIntervalContainingValue
        (addToSortedDisjointSafeIntegerIntervals c.witnessedPostIds (lo, hi)).2 g == -1) = true
    · rw [if_pos hidx] at hrun
      by_cases hupd :
          (addToSortedDisjointSafeIntegerIntervals c.witnessedPostIds (lo, hi)).1 = true
      · rw [if_pos hupd] at hrun
        obtain ⟨-, ho⟩ := saveAndReturn_ok hrun
        rw [ho] at hres
        exact ReconcileResult.noConfusion hres
      · rw [if_neg hupd] at hrun
        have ho := ReconcileRun.ok.inj hrun
        rw [← ho] at hres
        exact ReconcileResult.noConfusion hres
    · rw [if_neg hidx] at hrun
      by_cases hco :
          ((addToSortedDisjointSafeIntegerIntervals c.witnessedPostIds (lo, hi)).1 &&
            (indexOfIntervalContainingValue
              (addToSortedDisjointSafeIntegerIntervals c.witnessedPostIds (lo, hi)).2 g
              == 0)) = true
      · have hnot : (!((addToSortedDisjointSafeIntegerIntervals c.witnessedPostIds (lo, hi)).1 &&
            (indexOfIntervalContainingValue
              (addToSortedDisjointSafeIntegerIntervals c.witnessedPostIds (lo, hi)).2 g
              == 0))) = false := by
          rw [hco]
          rfl
        rw [hnot, if_neg Bool.false_ne_true] at hrun
        obtain ⟨-, ho⟩ := saveAndReturn_ok hrun
        rw [ho] at hres
        have hr : r = findBestGoalPostId g postIds :=
          (ReconcileResult.resolved.inj hres).symm
        refine ⟨?_, hr⟩
        have hidx0 : indexOfIntervalContainingValue
            (addToSortedDisjointSafeIntegerIntervals c.witnessedPostIds (lo, hi)).2 g = 0 :=
          eq_of_beq ((Bool.and_eq_true _ _).mp hco).2
        exact merged_head_contains_imp hw hlt hidx0
      · rw [Bool.not_eq_true] at hco
        rw [hco, if_pos (show (!false) = true from rfl)] at hrun
        exact ReconcileRun.noConfusion hrun

/-- Strictly increasing run of post IDs starting strictly above `base`. -/
def increasingFrom (base : Int) : List Int → Bool
  | [] => true
  | x :: rest => decide (base < x) && increasingFrom x rest

theorem increasingFrom_mem {base : Int} {l : List Int}
    (h : increasingFrom base l = true) : ∀ x ∈ l, base < x := by
  induction l generalizing base with
  | nil => intro x hx; cases hx
  | cons y t ih =>
    intro x hx
    rw [show increasingFrom base (y :: t) = (decide (base < y) && increasingFrom y t) from rfl,
      Bool.and_eq_true] at h
    obtain ⟨h1, h2⟩ := h
    have hby := of_decide_eq_true h1
    rcases List.mem_cons.mp hx with hx | hx
    · rw [hx]; exact hby
    · exact lt_trans hby (ih h2 x hx)

theorem bestGoalPostLoop_spec {g : Int} :
    ∀ (l : List Int) (best : Int), best ≤ g → increasingFrom best l = true →
      (bestGoalPostLoop g l best ∈ best :: l ∧ bestGoalPostLoop g l best ≤ g ∧
        ∀ x ∈ best :: l, x ≤ g → x ≤ bestGoalPostLoop g l best) := by
  intro l
  induction l with
  | nil =>
    intro best hb _
    refine ⟨List.mem_cons_self _ _, hb, ?_⟩
    intro x hx _
    rcases List.mem_cons.mp hx with hx | hx
    · exact le_of_eq hx
    · cases hx
  | cons y t ih =>
    intro best hb h
    rw [show increasingFrom best (y :: t) = (decide (best < y) && increasingFrom y t) from rfl,
      Bool.and_eq_true] at h
    obtain ⟨h1, h2⟩ := h
    have hby := of_decide_eq_true h1
    by_cases hgy : g < y
    · have hres : bestGoalPostLoop g (y :: t) best = best := by
        simp [bestGoalPostLoop, hgy]
      rw [hres]
      refine ⟨List.mem_cons_self _ _, hb, ?_⟩
      intro x hx hxg
      rcases List.mem_cons.mp hx with hx | hx
      · exact le_of_eq hx
      · rcases List.mem_cons.mp hx with hx | hx
        · exfalso; rw [hx] at hxg; omega
        · exfalso
          have := increasingFrom_mem h2 x hx
          omega
    · have hyg : y ≤ g := not_lt.mp hgy
      have hres : bestGoalPostLoop g (y :: t) best = bestGoalPostLoop g t y := by
        simp [bestGoalPostLoop, hgy]
      rw [hres]
      obtain ⟨ihm, ihle, ihmax⟩ := ih y hyg h2
      refine ⟨List.mem_cons_of_mem best ihm, ihle, ?_⟩
      intro x hx hxg
      rcases List.mem_cons.mp hx with hx | hx
      · have hyres : y ≤ bestGoalPostLoop g t y := by
          rcases List.mem_cons.mp ihm with hm | hm
          · exact le_of_eq hm.symm
          · exact le_of_lt (increasingFrom_mem h2 _ hm)
        rw [hx]
        omega
      · exact ihmax x hx hxg

theorem revSorted_tail {x : Int} {l : List Int}
    (h : areReverseSortedSafePostIds (x :: l) = true) :
    areReverseSortedSafePostIds l = true := by
  cases l with
  | nil => rfl
  | cons y t =>
    rw [show areReverseSortedSafePostIds (x :: y :: t) =
      (isSafePositiveInteger x && decide (y < x) && areReverseSortedSafePostIds (y :: t))
      from rfl, Bool.and_eq_true] at h
    exact h.2

theorem revSorted_head_gt : ∀ {l : List Int} {x : Int},
    areReverseSortedSafePostIds (x :: l) = true → ∀ y ∈ l, y < x := by
  intro l
  induction l with
  | nil =>
    intro x _ y hy
    cases hy
  | cons z t ih =>
    intro x h y hy
    rw [show areReverseSortedSafePostIds (x :: z :: t) =
      (isSafePositiveInteger x && decide (z < x) && areReverseSortedSafePostIds (z :: t))
      from rfl, Bool.and_eq_true, Bool.and_eq_true] at h
    obtain ⟨⟨-, hzx⟩, hzt⟩ := h
    have hzx' := of_decide_eq_true hzx
    rcases List.mem_cons.mp hy with hy | hy
    · rw [hy]; exact hzx'
    · exact lt_trans (ih hzt y hy) hzx'

theorem revSorted_head_max {l : List Int} {x : Int}
    (h : areReverseSortedSafePostIds (x :: l) = true) : ∀ y ∈ x :: l, y ≤ x := by
  intro y hy
  rcases List.mem_cons.mp hy with hy | hy
  · exact le_of_eq hy
  · exact le_of_lt (revSorted_head_gt h y hy)

theorem revSorted_min : ∀ {l : List Int}, areReverseSortedSafePostIds l = true →
    ∀ x ∈ l, l.getLastD 0 ≤ x := by
  intro l
  induction l with
  | nil =>
    intro _ x hx
    cases hx
  | cons y t ih =>
    intro h x hx
    cases t with
    | nil =>
      rw [List.getLastD_cons]
      rcases List.mem_cons.mp hx with hx | hx
      · exact le_of_eq (by rw [hx]; rfl)
      · cases hx
    | cons z t' =>
      have hind : (y :: z :: t').getLastD 0 = (z :: t').getLastD 0 := by
        simp [List.getLastD_cons]
      rw [hind]
      have ht := revSorted_tail h
      rcases List.mem_cons.mp hx with hx | hx
      · have h1 := ih ht z (List.mem_cons_self z t')
        have h2 := revSorted_head_gt h z (List.mem_cons_self z t')
        rw [hx]
        omega
      · exact ih ht x hx

theorem increasingFrom_append_singleton :
    ∀ (A : List Int) (base x : Int),
      increasingFrom base (A ++ [x]) =
        (increasingFrom base A && decide (A.getLastD base < x)) := by
  intro A
  induction A with
  | nil =>
    intro base x
    simp [increasingFrom]
  | cons a A' ih =>
    intro base x
    rw [List.cons_append]
    rw [show increasingFrom base (a :: (A' ++ [x])) =
      (decide (base < a) && increasingFrom a (A' ++ [x])) from rfl]
    rw [ih a x]
    rw [show increasingFrom base (a :: A') =
      (decide (base < a) && increasingFrom a A') from rfl]
    rw [List.getLastD_cons]
    rw [Bool.and_assoc]

theorem revSorted_increasing : ∀ (l : List Int),
    areReverseSortedSafePostIds l = true →
    ∀ base : Int, (∀ x ∈ l, base < x) → increasingFrom base l.reverse = true := by
  intro l
  induction l with
  | nil =>
    intro _ base _
    rfl
  | cons y t ih =>
    intro h base hb
    rw [List.reverse_cons, increasingFrom_append_singleton, Bool.and_eq_true]
    constructor
    · apply ih (revSorted_tail h) base
      intro x hx
      exact hb x (List.mem_cons_of_mem y hx)
    · apply decide_eq_true
      cases t with
      | nil => exact hb y (List.mem_cons_self y [])
      | cons z t' =>
        have hgl : ((z :: t').reverse).getLastD base = z := by
          rw [List.getLastD_eq_getLast?, List.getLast?_reverse, List.head?_cons]
          rfl
        rw [hgl]
        exact revSorted_head_gt h z (List.mem_cons_self z t')

/-- `resolvedId` is the last ID of an oldest-to-newest scan of `postIds` not
exceeding `goalPostId`: an observed ID at or below `goalPostId` that every
observed ID at or below `goalPostId` is bounded by. -/
def isLastObservedAtOrBelow (resolvedId goalPostId : Int) (postIds : List Int) : Prop :=
  resolvedId ∈ postIds ∧ resolvedId ≤ goalPostId ∧
    ∀ x ∈ postIds, x ≤ goalPostId → x ≤ resolvedId

theorem findBest_spec {g : Int} {l : List Int} (hne : l ≠ [])
    (hsort : areReverseSortedSafePostIds l = true)
    (holdest : l.getLastD 0 ≤ g) :
    isLastObservedAtOrBelow (findBestGoalPostId g l) g l := by
  have hrevne : l.reverse ≠ [] := by simpa using hne
  have hrev_eq : l.reverse = l.getLastD 0 :: l.reverse.tail := by
    cases hrc : l.reverse with
    | nil => exact absurd hrc hrevne
    | cons a t =>
      have hhead : l.reverse.head? = some a := by rw [hrc]; rfl
      rw [List.head?_reverse] at hhead
      have hlast : l.getLastD 0 = a := by
        rw [List.getLastD_eq_getLast?, hhead]
        rfl
      rw [hlast]
      rfl
  have hbase : ∀ x ∈ l, l.getLastD 0 - 1 < x := by
    intro x hx
    have := revSorted_min hsort x hx
    omega
  have hinc := revSorted_increasing l hsort (l.getLastD 0 - 1) hbase
  rw [hrev_eq] at hinc
  rw [show increasingFrom (l.getLastD 0 - 1) (l.getLastD 0 :: l.reverse.tail) =
    (decide (l.getLastD 0 - 1 < l.getLastD 0) && increasingFrom (l.getLastD 0) l.reverse.tail)
    from rfl, Bool.and_eq_true] at hinc
  obtain ⟨-, hinc⟩ := hinc
  obtain ⟨hm, hle, hmax⟩ := bestGoalPostLoop_spec l.reverse.tail (l.getLastD 0) holdest hinc
  unfold findBestGoalPostId
  refine ⟨?_, hle, ?_⟩
  · have hmem : bestGoalPostLoop g l.reverse.tail (l.getLastD 0) ∈ l.reverse := by
      rw [hrev_eq]
      exact hm
    exact List.mem_reverse.mp hmem
  · intro x hx hxg
    have hxrev : x ∈ l.getLastD 0 :: l.reverse.tail := by
      rw [← hrev_eq]
      exact List.mem_reverse.mpr hx
    exact hmax x hxrev hxg

theorem augment_default_keeps_oldest (cursors : Cursors) (range : Int × Int) :
    (augmentWithAdjacencyHintsDefault cursors range).1 = range.1 := rfl

theorem augment_dashboard_newer_keeps_oldest (postId : Int) (cursors : Cursors)
    (range : Int × Int) :
    (augmentWithAdjacencyHintsDashboardNewer postId cursors range).1 = range.1 := by
  unfold augmentWithAdjacencyHintsDashboardNewer
  split <;> rfl

theorem augment_tagged_keeps_oldest (pageTimestamp : Int) (cursors : Cursors)
    (range : Int × Int) :
    (augmentWithAdjacencyHintsTagged pageTimestamp cursors range).1 = range.1 := by
  unfold augmentWithAdjacencyHintsTagged
  split
  · split <;> rfl
  · rfl

theorem augment_dashboard_older_oldest_ok (postId : Int) (cursors : Cursors)
    (range : Int × Int) :
    (augmentWithAdjacencyHintsDashboardOlder postId cursors range).1 = range.1 ∨
    indexOfIntervalContainingValue cursors.witnessedPostIds
      (augmentWithAdjacencyHintsDashboardOlder postId cursors range).1 ≠ -1 := by
  unfold augmentWithAdjacencyHintsDashboardOlder
  by_cases h : indexOfIntervalContainingValue cursors.witnessedPostIds postId ≠ -1
  · rw [if_pos h]
    right
    exact h
  · rw [if_neg h]
    left
    rfl

/-- C4: whenever `reconcile` returns a resolved ID with a pre-existing goal
post `g` — which covers every goal-reached return — that ID is the last ID of
an oldest-to-newest scan of `postIds` not exceeding `g`, i.e. the largest
observed ID at or below the previous goal post.  The hypothesis on
`augmentWithAdjacencyHints` (its result's oldest endpoint is either the
observed oldest ID or a post already inside a witnessed interval) holds for
every hint augmentation the contexts supply: see
`augment_default_keeps_oldest`, `augment_dashboard_newer_keeps_oldest`,
`augment_tagged_keeps_oldest` and `augment_dashboard_older_oldest_ok`. -/
theorem claim_C4_resolved_id_is_tightest (c : Cursors) (g r : Int) (postIds : List Int)
    (initial isFirstPage : Bool)
    (augmentWithAdjacencyHints : Cursors → Int × Int → Int × Int)
    (updateAdjacencyHints : Cursors → List Int → Cursors)
    (o : ReconcileOutcome)
    (hval : validCursors c = true)
    (hg : c.goalPostId = some g)
    (hpost : areReverseSortedSafePostIds postIds = true)
    (haug : initial = true →
      (augmentWithAdjacencyHints c (postIds.getLastD 0, postIds.headD 0)).1 =
        postIds.getLastD 0 ∨
      indexOfIntervalContainingValue c.witnessedPostIds
        (augmentWithAdjacencyHints c (postIds.getLastD 0, postIds.headD 0)).1 ≠ -1)
    (hrun : reconcile c postIds initial isFirstPage augmentWithAdjacencyHints
      updateAdjacencyHints = ReconcileRun.ok o)
    (hres : o.result = ReconcileResult.resolved r) :
    isLastObservedAtOrBelow r g postIds := by
  obtain ⟨hsafe, hw⟩ := validCursors_some hval hg
  cases postIds with
  | nil =>
    unfold reconcile at hrun
    have ho := ReconcileRun.ok.inj hrun
    rw [← ho] at hres
    exact ReconcileResult.noConfusion hres
  | cons n rest =>
    unfold reconcile at hrun
    dsimp only at hrun
    rw [hg] at hrun
    rw [show ((some g == (none : Option Int)) : Bool) = false from rfl, Bool.and_false,
      if_neg Bool.false_ne_true] at hrun
    dsimp only at hrun
    rw [hsafe] at hrun
    rw [show ((!true) : Bool) = false from rfl, if_neg Bool.false_ne_true] at hrun
    cases initial with
    | false =>
      rw [Bool.false_and, if_neg Bool.false_ne_true] at hrun
      rw [if_neg Bool.false_ne_true] at hrun
      obtain ⟨hlog, hrfind⟩ := reconcileMerge_resolved hw hrun hres
      rw [hrfind]
      exact findBest_spec (List.cons_ne_nil n rest) hpost hlog
    | true =>
      rw [Bool.true_and] at hrun
      by_cases hdel : n < g
      · rw [if_pos (decide_eq_true hdel)] at hrun
        cases isFirstPage with
        | true =>
          rw [if_pos rfl] at hrun
          obtain ⟨-, ho⟩ := saveAndReturn_ok hrun
          rw [ho] at hres
          have hrn : n = r := ReconcileResult.resolved.inj hres
          rw [← hrn]
          exact ⟨List.mem_cons_self n rest, le_of_lt hdel,
            fun x hx _ => revSorted_head_max hpost x hx⟩
        | false =>
          rw [if_neg Bool.false_ne_true] at hrun
          have ho := ReconcileRun.ok.inj hrun
          rw [← ho] at hres
          exact ReconcileResult.noConfusion hres
      · rw [if_neg (fun hcon => hdel (of_decide_eq_true hcon))] at hrun
        rw [if_pos rfl] at hrun
        obtain ⟨hlog, hrfind⟩ := reconcileMerge_resolved hw hrun hres
        rw [hrfind]
        apply findBest_spec (List.cons_ne_nil n rest) hpost
        rcases haug rfl with hkeep | hwitnessed
        · rw [List.headD_cons] at hkeep
          rw [← hkeep]
          exact hlog
        · exfalso
          rw [List.headD_cons] at hwitnessed
          rcases indexOfLoop_spec (augmentWithAdjacencyHints c ((n :: rest).getLastD 0, n)).1
              c.witnessedPostIds g 0 le_rfl hw with
            ⟨hnone, -⟩ | ⟨j, hj, -, hc1, -⟩
          · exact hwitnessed hnone
          · have hmem := getD_mem_of_lt c.witnessedPostIds j (0, 0) hj
            have hgt := (areSortedFrom_mem hw _ hmem).1
            omega

/-- Witness for C4: the goal-reached second call of the C1 scenario. -/
theorem claim_C4_witness :
    validCursors ⟨some 100, [(103, 105)], []⟩ = true ∧
    areReverseSortedSafePostIds [103, 102, 101, 100, 99] = true ∧
    isLastObservedAtOrBelow 100 100 [103, 102, 101, 100, 99] :=
  ⟨by decide, by decide,
    claim_C4_resolved_id_is_tightest ⟨some 100, [(103, 105)], []⟩ 100 100
      [103, 102, 101, 100, 99] false true augmentWithAdjacencyHintsDefault
      updateAdjacencyHintsDashboard
      ⟨ReconcileResult.resolved 100, ⟨some 105, [], []⟩, some ⟨some 105, [], []⟩⟩
      (by decide) rfl (by decide) (fun h => Bool.noConfusion h) (by decide) rfl⟩
